import Mathlib

/-!
Verification of the backend-agnostic dataframe expression layer.

The core engine (expression nodes, validator/broadcaster, evaluation
engine, frame facade) is exercised by the repository's tests and demo
scripts but its implementation is not part of the visible sources, so the
engine is modelled here from the specification: expression nodes are a
tagged tree, values are exact rationals, evaluation is a pure function
from a node and a frame to either a resolved column or a synchronous
error, and backends differ only in the semantics of their native
integer-division primitive (floor versus truncation toward zero), with
the correction step of spec section 4.3 applied on truncating backends.
-/

namespace Narwhals

/-- Modelled from the spec: scalar cell values of the engine.  The dtype
model's numeric types are collapsed to exact rationals, which suffice for
the arithmetic, aggregation and broadcasting behaviour under study. -/
abbrev Val := ℚ

/-- Modelled from the spec: the semantics of a backend's native
integer-division primitive — floor toward negative infinity, or
truncation toward zero. -/
inductive DivStyle
  | floored
  | truncated
deriving DecidableEq

/-- Modelled from the spec: the three supported engine kinds (an eager
row-indexed engine, an eager columnar/Arrow-style engine, and a lazy
query-building engine). -/
inductive BackendKind
  | eagerIndexed
  | eagerColumnar
  | lazyPlan
deriving DecidableEq

/-- Modelled from the spec: the eager columnar engine's native division
primitive truncates toward zero; the other engines floor natively. -/
def BackendKind.divStyle : BackendKind → DivStyle
  | .eagerIndexed => .floored
  | .eagerColumnar => .truncated
  | .lazyPlan => .floored

/-- Truncation toward zero of a rational, as an integer. -/
def ratTrunc (q : ℚ) : ℤ := if 0 ≤ q then ⌊q⌋ else ⌈q⌉

/-- Modelled from the spec: a backend's native floor-division primitive,
before any correction.  A floored backend computes the true floor; a
truncating backend rounds the quotient toward zero. -/
def nativeFloorDiv : DivStyle → ℚ → ℚ → ℚ
  | .floored, x, y => ((⌊x / y⌋ : ℤ) : ℚ)
  | .truncated, x, y => ((ratTrunc (x / y) : ℤ) : ℚ)

/-- Modelled from the spec: floor division as exposed by the evaluation
engine.  On a backend whose native primitive truncates toward zero, a
correction step subtracts one whenever the native remainder is nonzero
and disagrees in sign with the divisor. -/
def correctedFloorDiv (s : DivStyle) (x y : Val) : Val :=
  match s with
  | .floored => nativeFloorDiv .floored x y
  | .truncated =>
    let q := nativeFloorDiv .truncated x y
    let r := x - y * q
    if r ≠ 0 ∧ ((r < 0) ↔ (0 < y)) then q - 1 else q

/-- Modelled from the spec: modulo as exposed by the evaluation engine,
defined so that the divisor times the corrected floor quotient plus the
result gives back the dividend. -/
def correctedMod (s : DivStyle) (x y : Val) : Val :=
  x - y * correctedFloorDiv s x y

theorem sub_floor_mul_eq_fract (x y : ℚ) (hy : y ≠ 0) :
    x - y * ((⌊x / y⌋ : ℤ) : ℚ) = y * Int.fract (x / y) := by
  rw [Int.fract, mul_sub, mul_comm y (x / y), div_mul_cancel₀ x hy]

/-- On every backend the corrected floor division equals the true floor
of the quotient: the correction step exactly repairs truncation toward
zero. -/
theorem correctedFloorDiv_eq_floor (s : DivStyle) (x y : ℚ) (hy : y ≠ 0) :
    correctedFloorDiv s x y = ((⌊x / y⌋ : ℤ) : ℚ) := by
  cases s with
  | floored => rfl
  | truncated =>
    have hf0 : 0 ≤ Int.fract (x / y) := Int.fract_nonneg _
    have hf1 : Int.fract (x / y) < 1 := Int.fract_lt_one _
    simp only [correctedFloorDiv, nativeFloorDiv, ratTrunc]
    by_cases h0 : 0 ≤ x / y
    · rw [if_pos h0, if_neg]
      rintro ⟨h1, h2⟩
      rw [sub_floor_mul_eq_fract x y hy] at h1 h2
      have hfpos : 0 < Int.fract (x / y) := by
        rcases eq_or_lt_of_le hf0 with he | hl
        · exact absurd (by rw [← he, mul_zero]) h1
        · exact hl
      rcases lt_or_gt_of_ne hy with hyneg | hypos
      · exact absurd (h2.mp (by nlinarith)) (not_lt.mpr hyneg.le)
      · have hcon := h2.mpr hypos
        nlinarith
    · rw [if_neg h0]
      by_cases hfz : Int.fract (x / y) = 0
      · have hqz : ((⌊x / y⌋ : ℤ) : ℚ) = x / y := by
          have h := Int.self_sub_floor (x / y)
          rw [hfz] at h
          linarith
        have hceil : (⌈x / y⌉ : ℤ) = ⌊x / y⌋ := by
          rw [← hqz]
          simp
        rw [hceil, if_neg]
        rintro ⟨h1, _⟩
        apply h1
        rw [sub_floor_mul_eq_fract x y hy, hfz, mul_zero]
      · have hceilQ : ((⌈x / y⌉ : ℤ) : ℚ) = ((⌊x / y⌋ : ℤ) : ℚ) + 1 := by
          have h := Int.ceil_eq_add_one_sub_fract hfz
          have h2 := Int.self_sub_floor (x / y)
          linarith
        have hfpos : 0 < Int.fract (x / y) := lt_of_le_of_ne hf0 (Ne.symm hfz)
        have hr : x - y * ((⌈x / y⌉ : ℤ) : ℚ) =
            y * Int.fract (x / y) - y := by
          rw [hceilQ, mul_add, mul_one]
          have h3 := sub_floor_mul_eq_fract x y hy
          linarith
        have hcond : x - y * ((⌈x / y⌉ : ℤ) : ℚ) ≠ 0 ∧
            ((x - y * ((⌈x / y⌉ : ℤ) : ℚ) < 0) ↔ (0 < y)) := by
          constructor
          · rw [hr]
            intro hcontra
            rcases lt_or_gt_of_ne hy with hyneg | hypos
            · nlinarith
            · nlinarith
          · rw [hr]
            constructor
            · intro hlt
              by_contra hny
              have hyneg : y < 0 := lt_of_le_of_ne (not_lt.mp hny) hy
              nlinarith
            · intro hypos
              nlinarith
        rw [if_pos hcond, hceilQ]
        ring

/-- Floor division of integers is invariant under negating both
arguments. -/
theorem fdiv_neg_neg (a b : ℤ) : Int.fdiv (-a) (-b) = Int.fdiv a b := by
  rcases a with (_ | m) | m <;> rcases b with (_ | n) | n
  · rfl
  · rfl
  · rfl
  · show (0 : ℤ) = Int.ofNat ((m + 1) / 0)
    rw [Nat.div_zero]
    rfl
  · rfl
  · rfl
  · show Int.ofNat ((m + 1) / 0) = (0 : ℤ)
    rw [Nat.div_zero]
    rfl
  · rfl
  · rfl

theorem floor_intCast_div_intCast_pos (a b : ℤ) (hb : 0 < b) :
    ⌊(a : ℚ) / (b : ℚ)⌋ = Int.fdiv a b := by
  have hbn : ((b.toNat : ℕ) : ℤ) = b := Int.toNat_of_nonneg hb.le
  have h1 : ((b.toNat : ℕ) : ℚ) = (b : ℚ) := by
    exact_mod_cast hbn
  rw [← h1, Rat.floor_intCast_div_natCast, hbn, Int.fdiv_eq_ediv a hb.le]

/-- The floor of the rational quotient of two integers is exactly
`Int.fdiv`, the floor-toward-negative-infinity integer division. -/
theorem floor_intCast_div_intCast (a b : ℤ) (hb : b ≠ 0) :
    ⌊(a : ℚ) / (b : ℚ)⌋ = Int.fdiv a b := by
  rcases lt_or_gt_of_ne hb with hneg | hpos
  · have h1 : (a : ℚ) / (b : ℚ) = ((-a : ℤ) : ℚ) / ((-b : ℤ) : ℚ) := by
      push_cast
      rw [neg_div_neg_eq]
    rw [h1, floor_intCast_div_intCast_pos (-a) (-b) (by omega), fdiv_neg_neg]
  · exact floor_intCast_div_intCast_pos a b hpos

/-- The integer specialization of the corrected floor division. -/
theorem correctedFloorDiv_intCast (s : DivStyle) (a b : ℤ) (hb : b ≠ 0) :
    correctedFloorDiv s (a : ℚ) (b : ℚ) = ((Int.fdiv a b : ℤ) : ℚ) := by
  rw [correctedFloorDiv_eq_floor s _ _ (by exact_mod_cast hb),
    floor_intCast_div_intCast a b hb]

/-- The integer specialization of the corrected modulo. -/
theorem correctedMod_intCast (s : DivStyle) (a b : ℤ) (hb : b ≠ 0) :
    correctedMod s (a : ℚ) (b : ℚ) = ((Int.fmod a b : ℤ) : ℚ) := by
  rw [correctedMod, correctedFloorDiv_intCast s a b hb]
  have h := Int.fdiv_add_fmod a b
  have h2 : ((b * Int.fdiv a b + Int.fmod a b : ℤ) : ℚ) = ((a : ℤ) : ℚ) := by
    rw [h]
  push_cast at h2
  linarith

/-- Modelled from the spec: the closed operator set carried on a
`BinaryOp` node. -/
inductive Op
  | add
  | sub
  | mul
  | truediv
  | floordiv
  | mod
  | pow
deriving DecidableEq

/-- Modelled from the spec: unary operator kinds. -/
inductive UOp
  | neg
deriving DecidableEq

/-- Modelled from the spec: aggregation kinds. -/
inductive AggKind
  | sum
  | mean
  | low
  | high
deriving DecidableEq

/-- Modelled from the spec: horizontal reduction kinds. -/
inductive HorizKind
  | hsum
deriving DecidableEq

/-- Modelled from the spec: the expression intermediate representation, a
tagged immutable tree — column reference, literal, the all-columns
selector, binary and unary operations, aggregation, horizontal reduction
and aliasing.  The spec writes the alias variant as `Alias(inner,
new_name)`; it is called `aliasNode` here. -/
inductive Node
  | columnRef (name : String)
  | lit (value : Val)
  | allColumns
  | binaryOp (op : Op) (left right : Node)
  | unaryOp (op : UOp) (operand : Node)
  | aggregate (kind : AggKind) (operand : Node)
  | horizontalReduce (kind : HorizKind) (operands : List Node)
  | aliasNode (inner : Node) (newName : String)

/-- Modelled from the spec: the error taxonomy of section 7 restricted to
the errors the modelled fragment can raise.  A shape error names both
operand lengths. -/
inductive EvalError
  | shapeError (left right : ℕ)
  | columnNotFound (name : String)
  | divisionByZero
  | unsupportedOp
deriving DecidableEq

/-- Modelled from the spec: a resolved column — either a scalar (a
literal or an aggregation result, broadcastable by the caller) or a
materialized column with a length. -/
inductive Resolved
  | scalar (name : String) (value : Val)
  | column (name : String) (values : List Val)
deriving DecidableEq

def Resolved.rename : Resolved → String → Resolved
  | .scalar _ v, n => .scalar n v
  | .column _ vs, n => .column n vs

/-- Modelled from the spec: one elementwise application of the canonical
operator vocabulary on a backend of the given division style.  Division
and modulo by zero, and powers with a non-integer exponent (which leave
the rational value model), fail synchronously. -/
def applyOp (s : DivStyle) (op : Op) (x y : Val) : Except EvalError Val :=
  match op with
  | .add => .ok (x + y)
  | .sub => .ok (x - y)
  | .mul => .ok (x * y)
  | .truediv => if y = 0 then .error .divisionByZero else .ok (x / y)
  | .floordiv =>
    if y = 0 then .error .divisionByZero else .ok (correctedFloorDiv s x y)
  | .mod =>
    if y = 0 then .error .divisionByZero else .ok (correctedMod s x y)
  | .pow =>
    if y.den = 1 then
      if y.num < 0 ∧ x = 0 then .error .divisionByZero else .ok (x ^ y.num)
    else .error .unsupportedOp

/-- Modelled from the spec: the validator/broadcaster output — the two
operands paired up after the length check, with a scalar operand
broadcast by repeating its value. -/
inductive Broadcasted
  | scalarPair (name : String) (x y : Val)
  | columnPair (name : String) (pairs : List (Val × Val))
deriving DecidableEq

/-- Modelled from the spec: the validator invoked immediately before
every binary operation.  Two column operands must agree on length (a
mismatch is a shape error naming both lengths); a scalar operand is
broadcast to the other operand's length by repeating its value and never
fails on length grounds. -/
def validateOperands : Resolved → Resolved → Except EvalError Broadcasted
  | .scalar n x, .scalar _ y => .ok (.scalarPair n x y)
  | .scalar n x, .column _ ys =>
    .ok (.columnPair n ((List.replicate ys.length x).zip ys))
  | .column n xs, .scalar _ y =>
    .ok (.columnPair n (xs.zip (List.replicate xs.length y)))
  | .column n xs, .column _ ys =>
    if xs.length = ys.length then .ok (.columnPair n (xs.zip ys))
    else .error (.shapeError xs.length ys.length)

/-- Evaluate a fallible function over every element of a list, stopping
at the first error. -/
def mapExcept {α β : Type} (f : α → Except EvalError β) :
    List α → Except EvalError (List β)
  | [] => .ok []
  | a :: rest =>
    match f a with
    | .error e => .error e
    | .ok b =>
      match mapExcept f rest with
      | .error e => .error e
      | .ok bs => .ok (b :: bs)

/-- Modelled from the spec: the backend's native binary primitive, which
runs only on operands the validator has already paired up. -/
def nativeBinary (s : DivStyle) (op : Op) : Broadcasted → Except EvalError Resolved
  | .scalarPair n x y =>
    match applyOp s op x y with
    | .error e => .error e
    | .ok v => .ok (.scalar n v)
  | .columnPair n ps =>
    match mapExcept (fun p => applyOp s op p.1 p.2) ps with
    | .error e => .error e
    | .ok vs => .ok (.column n vs)

/-- Modelled from the spec: a binary operation between resolved operands
runs the validator first and only then the native primitive. -/
def binaryResolved (s : DivStyle) (op : Op) (l r : Resolved) :
    Except EvalError Resolved :=
  match validateOperands l r with
  | .error e => .error e
  | .ok b => nativeBinary s op b

/-- Modelled from the spec: a frame is an ordered association of column
names to materialized columns. -/
structure Frame where
  columns : List (String × List Val)
deriving DecidableEq

def lookupCol : List (String × List Val) → String → Option (List Val)
  | [], _ => none
  | c :: rest, nm => if c.1 = nm then some c.2 else lookupCol rest nm

def Frame.lookupCol (df : Frame) (nm : String) : Option (List Val) :=
  Narwhals.lookupCol df.columns nm

def Frame.names (df : Frame) : List String := df.columns.map Prod.fst

def Frame.height (df : Frame) : ℕ :=
  match df.columns with
  | [] => 0
  | c :: _ => c.2.length

/-- Modelled from the spec: a frame is well formed when its column names
are distinct and all columns share one length. -/
def Frame.wellFormed (df : Frame) : Prop :=
  df.names.Nodup ∧ ∀ c ∈ df.columns, c.2.length = df.height

/-- Modelled from the spec: the adapter aggregation primitive, producing
one value from a materialized column. -/
def aggApply (k : AggKind) (vs : List Val) : Except EvalError Val :=
  match k with
  | .sum => .ok (vs.foldl (fun a b => a + b) 0)
  | .mean =>
    match vs with
    | [] => .error .unsupportedOp
    | _ => .ok (vs.foldl (fun a b => a + b) 0 / (vs.length : ℚ))
  | .low =>
    match vs with
    | [] => .error .unsupportedOp
    | v :: rest => .ok (rest.foldl (fun a b => min a b) v)
  | .high =>
    match vs with
    | [] => .error .unsupportedOp
    | v :: rest => .ok (rest.foldl (fun a b => max a b) v)

def HorizKind.toOp : HorizKind → Op
  | .hsum => .add

/-- Modelled from the spec: a horizontal reduction folds its operands
pairwise with the binary primitive of the chosen reduction kind,
validating at each step. -/
def horizontalFold (s : DivStyle) (op : Op) :
    Resolved → List Resolved → Except EvalError Resolved
  | acc, [] => .ok acc
  | acc, r :: rs =>
    match binaryResolved s op acc r with
    | .error e => .error e
    | .ok acc2 => horizontalFold s op acc2 rs

mutual

/-- Modelled from the spec: the evaluation engine, a pure recursive
function over node variants.  Leaves resolve directly; binary and unary
operations evaluate children first, then invoke the validator and the
native primitive; aggregation produces a length-1 (scalar) result;
`AllColumns` must have been expanded before evaluation. -/
def evalNode (s : DivStyle) (df : Frame) : Node → Except EvalError Resolved
  | .columnRef n =>
    match df.lookupCol n with
    | some vs => .ok (.column n vs)
    | none => .error (.columnNotFound n)
  | .lit v => .ok (.scalar "literal" v)
  | .allColumns => .error .unsupportedOp
  | .binaryOp op l r =>
    match evalNode s df l with
    | .error e => .error e
    | .ok lv =>
      match evalNode s df r with
      | .error e => .error e
      | .ok rv => binaryResolved s op lv rv
  | .unaryOp .neg e =>
    match evalNode s df e with
    | .error e2 => .error e2
    | .ok (.scalar n v) => .ok (.scalar n (-v))
    | .ok (.column n vs) => .ok (.column n (vs.map (fun v => -v)))
  | .aggregate k e =>
    match evalNode s df e with
    | .error e2 => .error e2
    | .ok (.scalar n v) =>
      match aggApply k [v] with
      | .error e2 => .error e2
      | .ok w => .ok (.scalar n w)
    | .ok (.column n vs) =>
      match aggApply k vs with
      | .error e2 => .error e2
      | .ok w => .ok (.scalar n w)
  | .horizontalReduce k es =>
    match evalList s df es with
    | .error e => .error e
    | .ok [] => .error .unsupportedOp
    | .ok (r :: rs) => horizontalFold s k.toOp r rs
  | .aliasNode e n =>
    match evalNode s df e with
    | .error e2 => .error e2
    | .ok r => .ok (r.rename n)

/-- Evaluate a list of nodes in order, stopping at the first error. -/
def evalList (s : DivStyle) (df : Frame) : List Node → Except EvalError (List Resolved)
  | [] => .ok []
  | n :: rest =>
    match evalNode s df n with
    | .error e => .error e
    | .ok r =>
      match evalList s df rest with
      | .error e => .error e
      | .ok rs => .ok (r :: rs)

end

mutual

/-- Whether a node contains the all-columns selector. -/
def containsAll : Node → Bool
  | .columnRef _ => false
  | .lit _ => false
  | .allColumns => true
  | .binaryOp _ l r => containsAll l || containsAll r
  | .unaryOp _ e => containsAll e
  | .aggregate _ e => containsAll e
  | .horizontalReduce _ es => containsAllList es
  | .aliasNode e _ => containsAll e

def containsAllList : List Node → Bool
  | [] => false
  | e :: rest => containsAll e || containsAllList rest

end

mutual

/-- Substitute a concrete column reference for every occurrence of the
all-columns selector. -/
def substAll (c : String) : Node → Node
  | .columnRef n => .columnRef n
  | .lit v => .lit v
  | .allColumns => .columnRef c
  | .binaryOp op l r => .binaryOp op (substAll c l) (substAll c r)
  | .unaryOp op e => .unaryOp op (substAll c e)
  | .aggregate k e => .aggregate k (substAll c e)
  | .horizontalReduce k es => .horizontalReduce k (substAllList c es)
  | .aliasNode e n => .aliasNode (substAll c e) n

def substAllList (c : String) : List Node → List Node
  | [] => []
  | e :: rest => substAll c e :: substAllList c rest

end

/-- Modelled from the spec: at resolution time an expression containing
the all-columns selector expands to one copy per column of the target
frame, in the frame's column order, each aliased to that column's name;
an expression without the selector stands for itself. -/
def expand (df : Frame) (n : Node) : List Node :=
  if containsAll n then
    df.names.map (fun c => .aliasNode (substAll c n) c)
  else [n]

/-- Expand every requested expression against the target frame. -/
def expandAll (df : Frame) : List Node → List Node
  | [] => []
  | e :: rest => expand df e ++ expandAll df rest

/-- Lengths of the column-shaped results among a list of resolved
columns. -/
def columnLengths : List Resolved → List ℕ
  | [] => []
  | .column _ vs :: rest => vs.length :: columnLengths rest
  | .scalar _ _ :: rest => columnLengths rest

def firstDifferent (n : ℕ) : List ℕ → Option ℕ
  | [] => none
  | m :: rest => if m = n then firstDifferent n rest else some m

/-- Modelled from the spec: the common materialized length of one
`select` call's results — 1 when every result is scalar, otherwise the
shared column length, failing with a shape error naming two disagreeing
lengths. -/
def commonLength (rs : List Resolved) : Except EvalError ℕ :=
  match columnLengths rs with
  | [] => .ok 1
  | n :: rest =>
    match firstDifferent n rest with
    | none => .ok n
    | some m => .error (.shapeError n m)

/-- Materialize one resolved column at the call's common length, a scalar
being broadcast by repetition. -/
def materializeAt (n : ℕ) : Resolved → String × List Val
  | .scalar nm v => (nm, List.replicate n v)
  | .column nm vs => (nm, vs)

/-- Modelled from the spec: `select` expands and evaluates every
requested expression, discards the original columns and assembles only
the results, failing if any two results disagree in length. -/
def selectF (s : DivStyle) (df : Frame) (es : List Node) : Except EvalError Frame :=
  match evalList s df (expandAll df es) with
  | .error e => .error e
  | .ok rs =>
    match commonLength rs with
    | .error e => .error e
    | .ok n => .ok ⟨rs.map (materializeAt n)⟩

/-- Broadcast one result to the frame height for `with_columns`: a
scalar is repeated, a column must already have the frame height. -/
def broadcastToHeight (h : ℕ) : Resolved → Except EvalError (String × List Val)
  | .scalar nm v => .ok (nm, List.replicate h v)
  | .column nm vs =>
    if vs.length = h then .ok (nm, vs) else .error (.shapeError h vs.length)

/-- Overwrite existing columns in place and append genuinely new columns
in call order, preserving the original column order. -/
def applyNewCols (old newCols : List (String × List Val)) :
    List (String × List Val) :=
  old.map (fun c =>
    match lookupCol newCols c.1 with
    | some vs => (c.1, vs)
    | none => c)
  ++ newCols.filter (fun c => (lookupCol old c.1).isNone)

/-- Modelled from the spec: `with_columns` expands and evaluates every
requested expression against the original frame, broadcasts each result
to the frame height, then appends or overwrites columns, keeping the
original order for existing columns; on any failure no columns are
applied. -/
def withColumnsF (s : DivStyle) (df : Frame) (es : List Node) :
    Except EvalError Frame :=
  match evalList s df (expandAll df es) with
  | .error e => .error e
  | .ok rs =>
    match mapExcept (broadcastToHeight df.height) rs with
    | .error e => .error e
    | .ok newCols => .ok ⟨applyNewCols df.columns newCols⟩

/-- Modelled from the spec: the fluent builder's column reference. -/
def col (n : String) : Node := .columnRef n

/-- Modelled from the spec: the all-columns selector `all()`. -/
def allOf : Node := .allColumns

/-- Modelled from the spec: the right-hand operator variants are defined
so that `self.rop(other)` builds the plain operator node with the operand
order swapped. -/
def Node.rop (op : Op) (self other : Node) : Node := .binaryOp op other self

def Node.radd (self other : Node) : Node := Node.rop .add self other

def Node.rsub (self other : Node) : Node := Node.rop .sub self other

def Node.rmul (self other : Node) : Node := Node.rop .mul self other

def Node.rtruediv (self other : Node) : Node := Node.rop .truediv self other

def Node.rfloordiv (self other : Node) : Node := Node.rop .floordiv self other

def Node.rmod (self other : Node) : Node := Node.rop .mod self other

def Node.rpow (self other : Node) : Node := Node.rop .pow self other

/-- Modelled from the spec: the aggregation builder methods wrap a node
in `Aggregate`. -/
def Node.sum (e : Node) : Node := .aggregate .sum e

def Node.mean (e : Node) : Node := .aggregate .mean e

/-- Modelled from the spec: `sum_horizontal` accepts a variadic list of
nodes and produces one horizontal reduction node. -/
def sumHorizontal (es : List Node) : Node := .horizontalReduce .hsum es

/-- Modelled from the spec: the eager series surface — a named
materialized sequence of values. -/
structure Series where
  name : String
  values : List Val
deriving DecidableEq

/-- Modelled from the spec: a series binary operation with a scalar
right-hand operand applies the backend primitive elementwise. -/
def seriesBinScalar (s : DivStyle) (op : Op) (ser : Series) (rhs : Val) :
    Except EvalError Series :=
  match mapExcept (fun x => applyOp s op x rhs) ser.values with
  | .error e => .error e
  | .ok ws => .ok ⟨ser.name, ws⟩

/-- Modelled from the spec: the right-hand series variants evaluate the
swapped operation elementwise, the scalar operand on the left. -/
def seriesRBinScalar (s : DivStyle) (op : Op) (ser : Series) (lhs : Val) :
    Except EvalError Series :=
  match mapExcept (fun x => applyOp s op lhs x) ser.values with
  | .error e => .error e
  | .ok ws => .ok ⟨ser.name, ws⟩

/-- Modelled from the spec: a series binary operation between two series
validates the lengths and applies the backend primitive elementwise. -/
def seriesBinSeries (s : DivStyle) (op : Op) (l r : Series) :
    Except EvalError Series :=
  if l.values.length = r.values.length then
    match mapExcept (fun p => applyOp s op p.1 p.2) (l.values.zip r.values) with
    | .error e => .error e
    | .ok ws => .ok ⟨l.name, ws⟩
  else .error (.shapeError l.values.length r.values.length)

/-- Modelled from the spec: a series right-hand division divides the
other operand by the receiver — the reciprocal relationship, not a
self-division. -/
def seriesRTruediv (s : DivStyle) (self other : Series) :
    Except EvalError Series :=
  seriesBinSeries s .truediv other self

/-- The key tuple of one row under a list of group-by key columns. -/
def keyTuple (df : Frame) (keys : List String) (i : ℕ) : List Val :=
  keys.map (fun k =>
    match df.lookupCol k with
    | some vs => vs.getD i 0
    | none => 0)

/-- Distinct elements in first-seen order. -/
def firstSeen (ks : List (List Val)) : List (List Val) :=
  ks.foldl (fun acc k => if k ∈ acc then acc else acc ++ [k]) []

/-- Modelled from the spec: `group_by` partitions rows by key equality;
the distinct key combinations appear in first-seen order. -/
def groupKeys (df : Frame) (keys : List String) : List (List Val) :=
  firstSeen ((List.range df.height).map (keyTuple df keys))

/-- The sub-frame holding exactly the rows whose key tuple equals the
given one. -/
def filterRowsByKey (df : Frame) (keys : List String) (k : List Val) : Frame :=
  ⟨df.columns.map (fun c =>
    (c.1, ((List.range df.height).filter
      (fun i => decide (keyTuple df keys i = k))).map (fun i => c.2.getD i 0)))⟩

/-- The output name of an expression: its alias if aliased, otherwise the
name of the leftmost column it is built from. -/
def Node.outName : Node → String
  | .columnRef n => n
  | .lit _ => "literal"
  | .allColumns => "all"
  | .binaryOp _ l _ => l.outName
  | .unaryOp _ e => e.outName
  | .aggregate _ e => e.outName
  | .horizontalReduce _ _ => "horizontal"
  | .aliasNode _ n => n

/-- Modelled from the spec: one aggregate expression evaluated per
partition, contributing exactly one value per distinct key
combination. -/
def aggColumn (s : DivStyle) (df : Frame) (keys : List String) (e : Node) :
    Except EvalError (String × List Val) :=
  match mapExcept (fun k =>
      match evalNode s (filterRowsByKey df keys k) e with
      | .error err => .error err
      | .ok (.scalar _ v) => .ok v
      | .ok (.column _ vs) =>
        match vs with
        | [v] => .ok v
        | _ => .error (.shapeError 1 vs.length)) (groupKeys df keys) with
  | .error err => .error err
  | .ok vals => .ok (e.outName, vals)

/-- Modelled from the spec: `group_by(keys).agg(nodes)` emits one row per
distinct key combination, in first-seen order, with the key columns
followed by one length-per-group aggregate column per requested node. -/
def groupByAgg (s : DivStyle) (df : Frame) (keys : List String)
    (aggs : List Node) : Except EvalError Frame :=
  match mapExcept (aggColumn s df keys) aggs with
  | .error e => .error e
  | .ok aggCols =>
    .ok ⟨keys.enum.map (fun p =>
      (p.2, (groupKeys df keys).map (fun k => k.getD p.1 0))) ++ aggCols⟩

theorem mapExcept_zip_replicate_right {β : Type} (f : Val → Val → Except EvalError β)
    (y : Val) (xs : List Val) :
    mapExcept (fun p => f p.1 p.2) (xs.zip (List.replicate xs.length y)) =
      mapExcept (fun x => f x y) xs := by
  induction xs with
  | nil => rfl
  | cons x rest ih =>
    have ih2 : mapExcept (fun p => f p.1 p.2)
        (List.zipWith Prod.mk rest (List.replicate rest.length y)) =
        mapExcept (fun x => f x y) rest := ih
    simp only [List.length_cons, List.replicate_succ, List.zip_cons_cons, mapExcept, ih2]

theorem mapExcept_replicate_zip_left {β : Type} (f : Val → Val → Except EvalError β)
    (x : Val) (ys : List Val) :
    mapExcept (fun p => f p.1 p.2) ((List.replicate ys.length x).zip ys) =
      mapExcept (fun y => f x y) ys := by
  induction ys with
  | nil => rfl
  | cons y rest ih =>
    have ih2 : mapExcept (fun p => f p.1 p.2)
        (List.zipWith Prod.mk (List.replicate rest.length x) rest) =
        mapExcept (fun y => f x y) rest := ih
    simp only [List.length_cons, List.replicate_succ, List.zip_cons_cons, mapExcept, ih2]

theorem mapExcept_ok_of_mem {α β : Type} (f : α → Except EvalError β) (g : α → β)
    (l : List α) (h : ∀ a ∈ l, f a = .ok (g a)) :
    mapExcept f l = .ok (l.map g) := by
  induction l with
  | nil => rfl
  | cons a rest ih =>
    simp only [mapExcept, h a (List.mem_cons_self a rest),
      ih (fun b hb => h b (List.mem_cons_of_mem a hb)), List.map_cons]

theorem mapExcept_length {α β : Type} (f : α → Except EvalError β) :
    ∀ (l : List α) (bs : List β), mapExcept f l = .ok bs → bs.length = l.length := by
  intro l
  induction l with
  | nil =>
    intro bs h
    simp only [mapExcept] at h
    cases h
    rfl
  | cons a rest ih =>
    intro bs h
    simp only [mapExcept] at h
    cases hfa : f a with
    | error e => rw [hfa] at h; cases h
    | ok b =>
      rw [hfa] at h
      cases hrest : mapExcept f rest with
      | error e => rw [hrest] at h; cases h
      | ok bs2 =>
        rw [hrest] at h
        cases h
        simp only [List.length_cons, ih bs2 hrest]

theorem mapExcept_mem_ok {α β : Type} (f : α → Except EvalError β) :
    ∀ (l : List α) (bs : List β), mapExcept f l = .ok bs →
      ∀ b ∈ bs, ∃ a ∈ l, f a = .ok b := by
  intro l
  induction l with
  | nil =>
    intro bs h b hb
    simp only [mapExcept] at h
    cases h
    cases hb
  | cons a rest ih =>
    intro bs h b hb
    simp only [mapExcept] at h
    cases hfa : f a with
    | error e => rw [hfa] at h; cases h
    | ok b0 =>
      rw [hfa] at h
      cases hrest : mapExcept f rest with
      | error e => rw [hrest] at h; cases h
      | ok bs2 =>
        rw [hrest] at h
        cases h
        rcases List.mem_cons.mp hb with hb0 | hb2
        · exact ⟨a, List.mem_cons_self a rest, by rw [hfa, hb0]⟩
        · rcases ih bs2 hrest b hb2 with ⟨a2, ha2, hfa2⟩
          exact ⟨a2, List.mem_cons_of_mem a ha2, hfa2⟩

theorem mapExcept_error_mem {α β : Type} (f : α → Except EvalError β) :
    ∀ (l : List α) (e : EvalError), mapExcept f l = .error e →
      ∃ a ∈ l, f a = .error e := by
  intro l
  induction l with
  | nil =>
    intro e h
    simp only [mapExcept] at h
    cases h
  | cons a rest ih =>
    intro e h
    simp only [mapExcept] at h
    cases hfa : f a with
    | error e0 =>
      rw [hfa] at h
      cases h
      exact ⟨a, List.mem_cons_self a rest, hfa⟩
    | ok b =>
      rw [hfa] at h
      cases hrest : mapExcept f rest with
      | error e0 =>
        rw [hrest] at h
        cases h
        rcases ih e hrest with ⟨a2, ha2, hfa2⟩
        exact ⟨a2, List.mem_cons_of_mem a ha2, hfa2⟩
      | ok bs2 => rw [hrest] at h; cases h

theorem mapExcept_error_of_mem {α β : Type} (f : α → Except EvalError β) :
    ∀ (l : List α) (a : α) (e : EvalError), a ∈ l → f a = .error e →
      ∃ e2, mapExcept f l = .error e2 := by
  intro l
  induction l with
  | nil =>
    intro a e ha _
    cases ha
  | cons a0 rest ih =>
    intro a e ha hfa
    rcases List.mem_cons.mp ha with h0 | h2
    · refine ⟨e, ?_⟩
      simp only [mapExcept, ← h0, hfa]
    · cases hfa0 : f a0 with
      | error e0 => exact ⟨e0, by simp only [mapExcept, hfa0]⟩
      | ok b =>
        rcases ih a e h2 hfa with ⟨e2, he2⟩
        exact ⟨e2, by simp only [mapExcept, hfa0, he2]⟩

theorem evalList_eq_mapExcept (s : DivStyle) (df : Frame) :
    ∀ l : List Node, evalList s df l = mapExcept (evalNode s df) l := by
  intro l
  induction l with
  | nil => rfl
  | cons n rest ih =>
    simp only [evalList, mapExcept, ih]
    cases evalNode s df n with
    | error e => rfl
    | ok r => cases mapExcept (evalNode s df) rest <;> rfl

theorem lookupCol_of_nodup :
    ∀ (cols : List (String × List Val)), (cols.map Prod.fst).Nodup →
      ∀ c ∈ cols, lookupCol cols c.1 = some c.2 := by
  intro cols
  induction cols with
  | nil =>
    intro _ c hc
    cases hc
  | cons a rest ih =>
    intro hnd c hc
    simp only [List.map_cons, List.nodup_cons] at hnd
    rcases List.mem_cons.mp hc with h0 | h2
    · rw [h0]
      simp [lookupCol]
    · have hne : a.1 ≠ c.1 := by
        intro he
        exact hnd.1 (he ▸ List.mem_map_of_mem Prod.fst h2)
      simp only [lookupCol, if_neg hne]
      exact ih hnd.2 c h2

theorem lookupCol_none_iff (nm : String) :
    ∀ cols : List (String × List Val),
      lookupCol cols nm = none ↔ nm ∉ cols.map Prod.fst := by
  intro cols
  induction cols with
  | nil => simp [lookupCol]
  | cons a rest ih =>
    by_cases h : a.1 = nm
    · simp [lookupCol, h]
    · simp [lookupCol, h, ih, Ne.symm h]

theorem map_zip_eq_zipWith {γ : Type} (f : Val → Val → γ) :
    ∀ xs ys : List Val,
      (xs.zip ys).map (fun p => f p.1 p.2) = List.zipWith f xs ys := by
  intro xs
  induction xs with
  | nil =>
    intro ys
    rfl
  | cons x rest ih =>
    intro ys
    cases ys with
    | nil => rfl
    | cons y rest2 => simp [ih]

/-- C1: for every supported backend and every pair of integers (left,
right) with right ≠ 0, evaluating col("a") // right on the one-row frame
with a = [left] yields the floor-toward-negative-infinity quotient
`Int.fdiv left right`, and col("a") % right yields `Int.fmod left right`
(so -7 // 2 = -4 and -7 % 2 = 1), including negative operands; the
truncating backend's native primitive really differs (it gives -3 at
(-7, 2)) and the correction step repairs it. -/
theorem claim_c1_floordiv_mod_floor_semantics (b : BackendKind)
    (left right : ℤ) (h : right ≠ 0) :
    selectF b.divStyle ⟨[("a", [(left : ℚ)])]⟩
        [.binaryOp .floordiv (col "a") (.lit (right : ℚ))] =
      .ok ⟨[("a", [((Int.fdiv left right : ℤ) : ℚ)])]⟩ ∧
    selectF b.divStyle ⟨[("a", [(left : ℚ)])]⟩
        [.binaryOp .mod (col "a") (.lit (right : ℚ))] =
      .ok ⟨[("a", [((Int.fmod left right : ℤ) : ℚ)])]⟩ ∧
    Int.fdiv (-7) 2 = -4 ∧ Int.fmod (-7) 2 = 1 ∧
    nativeFloorDiv .truncated ((-7 : ℤ) : ℚ) ((2 : ℤ) : ℚ) = ((-3 : ℤ) : ℚ) := by
  have hq : ((right : ℚ)) ≠ 0 := Int.cast_ne_zero.mpr h
  have hdiv := correctedFloorDiv_intCast b.divStyle left right h
  have hmod := correctedMod_intCast b.divStyle left right h
  refine ⟨?_, ?_, by decide, by decide, ?_⟩
  · simp [selectF, expandAll, expand, containsAll, evalList, evalNode, Frame.lookupCol,
      lookupCol, col, binaryResolved, validateOperands, nativeBinary, mapExcept, applyOp,
      commonLength, columnLengths, firstDifferent, materializeAt, hq, hdiv]
  · simp [selectF, expandAll, expand, containsAll, evalList, evalNode, Frame.lookupCol,
      lookupCol, col, binaryResolved, validateOperands, nativeBinary, mapExcept, applyOp,
      commonLength, columnLengths, firstDifferent, materializeAt, hq, hmod]
  · show ((ratTrunc (((-7 : ℤ) : ℚ) / ((2 : ℤ) : ℚ)) : ℤ) : ℚ) = ((-3 : ℤ) : ℚ)
    have harg : ((-7 : ℤ) : ℚ) / ((2 : ℤ) : ℚ) = (-7 : ℚ) / 2 := by norm_num
    rw [ratTrunc, harg, if_neg (by norm_num)]
    have hc : (⌈((-7 : ℚ) / 2)⌉ : ℤ) = -3 := by
      rw [Int.ceil_eq_iff]
      constructor <;> norm_num
    rw [hc]

/-- Witness for C1 at left = -7, right = 2 on the truncating backend. -/
theorem claim_c1_floordiv_mod_floor_semantics_witness :
    (2 : ℤ) ≠ 0 ∧
    selectF BackendKind.eagerColumnar.divStyle ⟨[("a", [((-7 : ℤ) : ℚ)])]⟩
        [.binaryOp .floordiv (col "a") (.lit ((2 : ℤ) : ℚ))] =
      .ok ⟨[("a", [((Int.fdiv (-7) 2 : ℤ) : ℚ)])]⟩ ∧
    selectF BackendKind.eagerColumnar.divStyle ⟨[("a", [((-7 : ℤ) : ℚ)])]⟩
        [.binaryOp .mod (col "a") (.lit ((2 : ℤ) : ℚ))] =
      .ok ⟨[("a", [((Int.fmod (-7) 2 : ℤ) : ℚ)])]⟩ :=
  ⟨by decide,
    (claim_c1_floordiv_mod_floor_semantics .eagerColumnar (-7) 2 (by decide)).1,
    (claim_c1_floordiv_mod_floor_semantics .eagerColumnar (-7) 2 (by decide)).2.1⟩

/-- C9: for every backend style, operator and scalar right-hand operand,
the expression surface (select of a binary node on column "a") and the
series surface (elementwise series-scalar operation) produce identical
results on the same eager frame, errors included. -/
theorem claim_c9_expr_series_equivalent (s : DivStyle) (op : Op) (nm : String)
    (vals : List Val) (rhs : Val) :
    selectF s ⟨[(nm, vals)]⟩ [.binaryOp op (col nm) (.lit rhs)] =
      (match seriesBinScalar s op ⟨nm, vals⟩ rhs with
       | .ok ser => .ok ⟨[(ser.name, ser.values)]⟩
       | .error e => .error e) := by
  have hlk : Frame.lookupCol ⟨[(nm, vals)]⟩ nm = some vals := by
    simp [Frame.lookupCol, lookupCol]
  have heval : evalNode s ⟨[(nm, vals)]⟩ (.binaryOp op (col nm) (.lit rhs)) =
      (match mapExcept (fun x => applyOp s op x rhs) vals with
       | .error e => .error e
       | .ok ws => .ok (.column nm ws)) := by
    simp only [evalNode, col, hlk, binaryResolved, validateOperands, nativeBinary]
    rw [mapExcept_zip_replicate_right (fun x y => applyOp s op x y) rhs vals]
  have hexp : expandAll ⟨[(nm, vals)]⟩ [.binaryOp op (col nm) (.lit rhs)] =
      [.binaryOp op (col nm) (.lit rhs)] := by
    simp [expandAll, expand, containsAll, col]
  simp only [selectF, hexp, evalList, heval, seriesBinScalar]
  cases hm : mapExcept (fun x => applyOp s op x rhs) vals with
  | error e => rfl
  | ok ws => simp [commonLength, columnLengths, firstDifferent, materializeAt]

/-- C2: the right-hand operator variants agree with their left-hand
counterparts with operand order swapped: on the expression surface the
built node evaluates identically to the swapped plain node for every
operator and operands; across the scalar/column divide the broadcast
scalar-left operation agrees elementwise with the series right-hand
variant; and on the concrete column [1, 2, 3] every right-hand operator
produces the swapped-order elementwise results of the test suite, on
every backend style. -/
theorem claim_c2_right_hand_operators :
    (∀ (s : DivStyle) (df : Frame) (op : Op) (a b : Node),
      evalNode s df (Node.rop op a b) = evalNode s df (.binaryOp op b a)) ∧
    (∀ (s : DivStyle) (op : Op) (nm : String) (ser : Series) (v : Val),
      binaryResolved s op (.scalar nm v) (.column ser.name ser.values) =
        (match seriesRBinScalar s op ser v with
         | .ok t => .ok (.column nm t.values)
         | .error e => .error e)) ∧
    (∀ s : DivStyle,
      selectF s ⟨[("a", [1, 2, 3])]⟩ [.aliasNode (Node.radd (col "a") (.lit 1)) "a"] =
        .ok ⟨[("a", [2, 3, 4])]⟩ ∧
      selectF s ⟨[("a", [1, 2, 3])]⟩ [.aliasNode (Node.rsub (col "a") (.lit 1)) "a"] =
        .ok ⟨[("a", [0, -1, -2])]⟩ ∧
      selectF s ⟨[("a", [1, 2, 3])]⟩ [.aliasNode (Node.rmul (col "a") (.lit 2)) "a"] =
        .ok ⟨[("a", [2, 4, 6])]⟩ ∧
      selectF s ⟨[("a", [1, 2, 3])]⟩ [.aliasNode (Node.rtruediv (col "a") (.lit 2)) "a"] =
        .ok ⟨[("a", [2, 1, 2 / 3])]⟩ ∧
      selectF s ⟨[("a", [1, 2, 3])]⟩ [.aliasNode (Node.rfloordiv (col "a") (.lit 2)) "a"] =
        .ok ⟨[("a", [2, 1, 0])]⟩ ∧
      selectF s ⟨[("a", [1, 2, 3])]⟩ [.aliasNode (Node.rmod (col "a") (.lit 2)) "a"] =
        .ok ⟨[("a", [0, 0, 2])]⟩ ∧
      selectF s ⟨[("a", [1, 2, 3])]⟩ [.aliasNode (Node.rpow (col "a") (.lit 2)) "a"] =
        .ok ⟨[("a", [2, 4, 8])]⟩) := by
  refine ⟨fun s df op a b => rfl, fun s op nm ser v => ?_, fun s => ?_⟩
  · simp only [binaryResolved, validateOperands, nativeBinary, seriesRBinScalar]
    rw [mapExcept_replicate_zip_left (fun x y => applyOp s op x y) v ser.values]
    cases mapExcept (fun y => applyOp s op v y) ser.values <;> rfl
  · cases s <;>
      refine ⟨?_, ?_, ?_, ?_, ?_, ?_, ?_⟩ <;>
      norm_num [selectF, expandAll, expand, containsAll, evalList, evalNode,
        Frame.lookupCol, lookupCol, col, Node.radd, Node.rsub, Node.rmul,
        Node.rtruediv, Node.rfloordiv, Node.rmod, Node.rpow, Node.rop,
        Resolved.rename, binaryResolved, validateOperands, nativeBinary, mapExcept,
        applyOp, correctedFloorDiv, correctedMod, nativeFloorDiv, ratTrunc,
        commonLength, columnLengths, firstDifferent, materializeAt]

theorem applyOp_error_not_shape (s : DivStyle) (op : Op) (x y : Val)
    (e : EvalError) (he : applyOp s op x y = .error e) :
    ∀ p q, e ≠ .shapeError p q := by
  intro p q
  cases op <;>
    simp only [applyOp] at he <;>
    first
      | cases he
      | (split_ifs at he <;> cases he <;> simp)

/-- C3: two column operands of different lengths make any binary
operation fail with a shape error naming both lengths, and the failure
comes from the validator stage itself, before the native primitive runs
(the native primitive only ever receives validator output); when exactly
one operand is a scalar it is broadcast to the column's length by
repeating its value, and no shape error can arise. -/
theorem claim_c3_shape_error_before_native (s : DivStyle) (op : Op)
    (n1 n2 : String) (xs ys : List Val) (hlen : xs.length ≠ ys.length) :
    validateOperands (.column n1 xs) (.column n2 ys) =
        .error (.shapeError xs.length ys.length) ∧
    binaryResolved s op (.column n1 xs) (.column n2 ys) =
        .error (.shapeError xs.length ys.length) ∧
    (∀ (v : Val) (zs : List Val) (m1 m2 : String),
      validateOperands (.scalar m1 v) (.column m2 zs) =
          .ok (.columnPair m1 ((List.replicate zs.length v).zip zs)) ∧
      validateOperands (.column m2 zs) (.scalar m1 v) =
          .ok (.columnPair m2 (zs.zip (List.replicate zs.length v))) ∧
      (∀ p q, binaryResolved s op (.scalar m1 v) (.column m2 zs) ≠
          .error (.shapeError p q)) ∧
      (∀ p q, binaryResolved s op (.column m2 zs) (.scalar m1 v) ≠
          .error (.shapeError p q))) := by
  have hval : validateOperands (.column n1 xs) (.column n2 ys) =
      .error (.shapeError xs.length ys.length) := by
    simp [validateOperands, hlen]
  refine ⟨hval, ?_, ?_⟩
  · simp [binaryResolved, hval]
  · intro v zs m1 m2
    refine ⟨rfl, rfl, ?_, ?_⟩
    · intro p q hcontra
      simp only [binaryResolved, validateOperands, nativeBinary] at hcontra
      cases hm : mapExcept (fun pr => applyOp s op pr.1 pr.2)
          ((List.replicate zs.length v).zip zs) with
      | ok ws => rw [hm] at hcontra; cases hcontra
      | error e =>
        rw [hm] at hcontra
        cases hcontra
        rcases mapExcept_error_mem _ _ _ hm with ⟨a, _, hfa⟩
        exact applyOp_error_not_shape s op a.1 a.2 _ hfa p q rfl
    · intro p q hcontra
      simp only [binaryResolved, validateOperands, nativeBinary] at hcontra
      cases hm : mapExcept (fun pr => applyOp s op pr.1 pr.2)
          (zs.zip (List.replicate zs.length v)) with
      | ok ws => rw [hm] at hcontra; cases hcontra
      | error e =>
        rw [hm] at hcontra
        cases hcontra
        rcases mapExcept_error_mem _ _ _ hm with ⟨a, _, hfa⟩
        exact applyOp_error_not_shape s op a.1 a.2 _ hfa p q rfl

/-- Witness for C3 at two concrete columns of lengths 2 and 3. -/
theorem claim_c3_shape_error_before_native_witness :
    ([(1 : ℚ), 2].length ≠ [(1 : ℚ), 2, 3].length) ∧
    (validateOperands (.column "a" [(1 : ℚ), 2]) (.column "b" [(1 : ℚ), 2, 3]) =
        .error (.shapeError [(1 : ℚ), 2].length [(1 : ℚ), 2, 3].length) ∧
      binaryResolved .floored .add (.column "a" [(1 : ℚ), 2])
          (.column "b" [(1 : ℚ), 2, 3]) =
        .error (.shapeError [(1 : ℚ), 2].length [(1 : ℚ), 2, 3].length)) :=
  ⟨by decide,
    (claim_c3_shape_error_before_native .floored .add "a" "b"
      [(1 : ℚ), 2] [(1 : ℚ), 2, 3] (by decide)).1,
    (claim_c3_shape_error_before_native .floored .add "a" "b"
      [(1 : ℚ), 2] [(1 : ℚ), 2, 3] (by decide)).2.1⟩

theorem evalList_error_of_mem (s : DivStyle) (df : Frame) (l : List Node)
    (n : Node) (e : EvalError) (hn : n ∈ l) (hf : evalNode s df n = .error e) :
    ∃ e2, evalList s df l = .error e2 := by
  rw [evalList_eq_mapExcept]
  exact mapExcept_error_of_mem _ l n e hn hf

/-- C4: if evaluating any one expanded column of a select or
with_columns call fails, the whole call returns an error: no columns are
applied and (the engine being a pure function of the input frame) the
original frame is untouched. -/
theorem claim_c4_no_partial_evaluation (s : DivStyle) (df : Frame)
    (es : List Node) (n : Node) (e : EvalError)
    (hn : n ∈ expandAll df es) (hf : evalNode s df n = .error e) :
    (∃ e2, selectF s df es = .error e2) ∧
    (∃ e2, withColumnsF s df es = .error e2) := by
  rcases evalList_error_of_mem s df (expandAll df es) n e hn hf with ⟨e2, he2⟩
  exact ⟨⟨e2, by simp [selectF, he2]⟩, ⟨e2, by simp [withColumnsF, he2]⟩⟩

/-- Witness for C4: a reference to a missing column fails the whole
call. -/
theorem claim_c4_no_partial_evaluation_witness :
    col "zzz" ∈ expandAll ⟨[("a", [(1 : ℚ)])]⟩ [col "zzz"] ∧
    evalNode .floored ⟨[("a", [(1 : ℚ)])]⟩ (col "zzz") =
      .error (.columnNotFound "zzz") ∧
    ((∃ e2, selectF .floored ⟨[("a", [(1 : ℚ)])]⟩ [col "zzz"] = .error e2) ∧
      (∃ e2, withColumnsF .floored ⟨[("a", [(1 : ℚ)])]⟩ [col "zzz"] = .error e2)) :=
  ⟨by simp [expandAll, expand, containsAll, col],
    by simp [evalNode, col, Frame.lookupCol, lookupCol],
    claim_c4_no_partial_evaluation .floored ⟨[("a", [(1 : ℚ)])]⟩ [col "zzz"]
      (col "zzz") (.columnNotFound "zzz")
      (by simp [expandAll, expand, containsAll, col])
      (by simp [evalNode, col, Frame.lookupCol, lookupCol])⟩

theorem mapExcept_map_ok {α β γ : Type} (f : β → Except EvalError γ)
    (g : α → β) (h : α → γ) (l : List α)
    (hfg : ∀ a ∈ l, f (g a) = .ok (h a)) :
    mapExcept f (l.map g) = .ok (l.map h) := by
  induction l with
  | nil => rfl
  | cons a rest ih =>
    simp only [List.map_cons, mapExcept, hfg a (List.mem_cons_self a rest),
      ih (fun b hb => hfg b (List.mem_cons_of_mem a hb))]

/-- The with_columns(all() * 2) evaluation on a well-formed frame:
every column is doubled in place. -/
theorem withColumnsF_all_mul_two (s : DivStyle) (df : Frame)
    (hwf : df.wellFormed) :
    withColumnsF s df [.binaryOp .mul .allColumns (.lit 2)] =
      .ok ⟨df.columns.map (fun c => (c.1, c.2.map (fun v => v * 2)))⟩ := by
  have hexp : expand df (.binaryOp .mul .allColumns (.lit 2)) =
      df.names.map (fun c => .aliasNode (.binaryOp .mul (.columnRef c) (.lit 2)) c) := by
    simp [expand, containsAll, substAll]
  have hexpAll : expandAll df [.binaryOp .mul .allColumns (.lit 2)] =
      df.names.map (fun c => .aliasNode (.binaryOp .mul (.columnRef c) (.lit 2)) c) := by
    simp [expandAll, hexp]
  have heval : ∀ c ∈ df.columns,
      evalNode s df (.aliasNode (.binaryOp .mul (.columnRef c.1) (.lit 2)) c.1) =
        .ok (.column c.1 (c.2.map (fun v => v * 2))) := by
    intro c hc
    have hlk : df.lookupCol c.1 = some c.2 :=
      lookupCol_of_nodup df.columns hwf.1 c hc
    simp only [evalNode, hlk, binaryResolved, validateOperands, nativeBinary]
    rw [mapExcept_zip_replicate_right (fun x y => applyOp s .mul x y) 2 c.2]
    rw [mapExcept_ok_of_mem (fun x => applyOp s .mul x 2) (fun x => x * 2) c.2
      (fun a _ => rfl)]
    rfl
  have hevlist : evalList s df (df.names.map
      (fun c => .aliasNode (.binaryOp .mul (.columnRef c) (.lit 2)) c)) =
      .ok (df.columns.map (fun c => .column c.1 (c.2.map (fun v => v * 2)))) := by
    rw [evalList_eq_mapExcept, Frame.names, List.map_map]
    exact mapExcept_map_ok (evalNode s df)
      (fun c => .aliasNode (.binaryOp .mul (.columnRef c.1) (.lit 2)) c.1)
      (fun c => .column c.1 (c.2.map (fun v => v * 2))) df.columns heval
  have hnc : (df.columns.map (fun c => (c.1, c.2.map (fun v => v * 2)))).map
      Prod.fst = df.columns.map Prod.fst := by
    rw [List.map_map]
    rfl
  have hover : df.columns.map (fun c =>
      match lookupCol (df.columns.map (fun c => (c.1, c.2.map (fun v => v * 2)))) c.1 with
      | some vs => (c.1, vs)
      | none => c) =
      df.columns.map (fun c => (c.1, c.2.map (fun v => v * 2))) := by
    apply List.map_congr_left
    intro c hc
    have hmem : ((c.1, c.2.map (fun v => v * 2)) : String × List Val) ∈
        df.columns.map (fun c => (c.1, c.2.map (fun v => v * 2))) :=
      List.mem_map_of_mem _ hc
    have hl := lookupCol_of_nodup
      (df.columns.map (fun c => (c.1, c.2.map (fun v => v * 2))))
      (by rw [hnc]; exact hwf.1) _ hmem
    rw [hl]
  have hfil : (df.columns.map (fun c => (c.1, c.2.map (fun v => v * 2)))).filter
      (fun c => (lookupCol df.columns c.1).isNone) = [] := by
    rw [List.filter_eq_nil_iff]
    intro c hc
    rcases List.mem_map.mp hc with ⟨c0, hc0, rfl⟩
    have hl := lookupCol_of_nodup df.columns hwf.1 c0 hc0
    simp [hl]
  have hbro : ∀ c ∈ df.columns,
      broadcastToHeight df.height (.column c.1 (c.2.map (fun v => v * 2))) =
        .ok (c.1, c.2.map (fun v => v * 2)) := by
    intro c hc
    simp [broadcastToHeight, hwf.2 c hc]
  simp only [withColumnsF, hexpAll, hevlist,
    mapExcept_map_ok (broadcastToHeight df.height)
      (fun c => .column c.1 (c.2.map (fun v => v * 2)))
      (fun c => (c.1, c.2.map (fun v => v * 2))) df.columns hbro,
    applyNewCols, hover, hfil, List.append_nil]

/-- C5: on every well-formed frame, with_columns(all() * 2) produces one
output column per input column, each elementwise equal to twice the
input, aliased to its original name, in the input column order; and the
all-columns selector expands at resolution time to one aliased binary
node per column of the target frame, in that frame's column order. -/
theorem claim_c5_with_columns_all_times_two (s : DivStyle) (df : Frame)
    (hwf : df.wellFormed) :
    withColumnsF s df [.binaryOp .mul .allColumns (.lit 2)] =
      .ok ⟨df.columns.map (fun c => (c.1, c.2.map (fun v => v * 2)))⟩ ∧
    expand df (.binaryOp .mul .allColumns (.lit 2)) =
      df.names.map (fun c => .aliasNode (.binaryOp .mul (.columnRef c) (.lit 2)) c) := by
  refine ⟨withColumnsF_all_mul_two s df hwf, ?_⟩
  simp [expand, containsAll, substAll]

/-- Witness for C5 on the frame with a = [1, 2, 3] and b = [4, 5, 6]. -/
theorem claim_c5_with_columns_all_times_two_witness :
    Frame.wellFormed ⟨[("a", [(1 : ℚ), 2, 3]), ("b", [(4 : ℚ), 5, 6])]⟩ ∧
    withColumnsF .floored ⟨[("a", [(1 : ℚ), 2, 3]), ("b", [(4 : ℚ), 5, 6])]⟩
        [.binaryOp .mul .allColumns (.lit 2)] =
      .ok ⟨[("a", [(2 : ℚ), 4, 6]), ("b", [(8 : ℚ), 10, 12])]⟩ := by
  have hwfc : Frame.wellFormed ⟨[("a", [(1 : ℚ), 2, 3]), ("b", [(4 : ℚ), 5, 6])]⟩ := by
    constructor
    · decide
    · intro c hc
      fin_cases hc <;> rfl
  refine ⟨hwfc, ?_⟩
  rw [(claim_c5_with_columns_all_times_two .floored _ hwfc).1]
  norm_num

theorem aggColumn_length (s : DivStyle) (df : Frame) (keys : List String)
    (e : Node) (nm : String) (ws : List Val)
    (h : aggColumn s df keys e = .ok (nm, ws)) :
    ws.length = (groupKeys df keys).length := by
  simp only [aggColumn] at h
  cases hm : mapExcept (fun k =>
      match evalNode s (filterRowsByKey df keys k) e with
      | .error err => .error err
      | .ok (.scalar _ v) => .ok v
      | .ok (.column _ vs) =>
        match vs with
        | [v] => .ok v
        | _ => .error (.shapeError 1 vs.length)) (groupKeys df keys) with
  | error err => rw [hm] at h; cases h
  | ok vals =>
    rw [hm] at h
    simp only [Except.ok.injEq, Prod.mk.injEq] at h
    rw [← h.2]
    exact mapExcept_length _ _ _ hm

/-- C6: an aggregation used inside with_columns evaluates to a length-1
result broadcast as a scalar over all frame rows, so with_columns(d =
col("a") - col("a").mean()) appends a frame-length column whose i-th
element is a[i] minus the mean of a; while after a group_by every
aggregate column of the output keeps exactly one value per group. -/
theorem claim_c6_aggregate_broadcast_and_groups :
    (∀ (s : DivStyle) (df : Frame) (v : Val) (rest : List Val),
      df.lookupCol "a" = some (v :: rest) →
      (v :: rest).length = df.height →
      lookupCol df.columns "d" = none →
      withColumnsF s df
          [.aliasNode (.binaryOp .sub (col "a") (Node.mean (col "a"))) "d"] =
        .ok ⟨df.columns ++ [("d", (v :: rest).map (fun x =>
          x - (v :: rest).foldl (fun a b => a + b) 0 / ((v :: rest).length : ℚ)))]⟩) ∧
    (∀ (s : DivStyle) (df : Frame) (keys : List String) (aggs : List Node)
      (out : Frame), groupByAgg s df keys aggs = .ok out →
      ∀ c ∈ out.columns, c.2.length = (groupKeys df keys).length) := by
  constructor
  · intro s df v rest ha hlen hd
    have heval : evalNode s df
        (.aliasNode (.binaryOp .sub (col "a") (Node.mean (col "a"))) "d") =
        .ok (.column "d" ((v :: rest).map (fun x =>
          x - (v :: rest).foldl (fun a b => a + b) 0 / ((v :: rest).length : ℚ)))) := by
      simp only [evalNode, col, Node.mean, ha, aggApply, binaryResolved,
        validateOperands, nativeBinary]
      rw [mapExcept_zip_replicate_right (fun x y => applyOp s .sub x y)
        ((v :: rest).foldl (fun a b => a + b) 0 / ((v :: rest).length : ℚ)) (v :: rest)]
      rw [mapExcept_ok_of_mem (fun x => applyOp s .sub x
          ((v :: rest).foldl (fun a b => a + b) 0 / ((v :: rest).length : ℚ)))
        (fun x => x - (v :: rest).foldl (fun a b => a + b) 0 / ((v :: rest).length : ℚ))
        (v :: rest) (fun a _ => rfl)]
      rfl
    have hexp : expandAll df
        [.aliasNode (.binaryOp .sub (col "a") (Node.mean (col "a"))) "d"] =
        [.aliasNode (.binaryOp .sub (col "a") (Node.mean (col "a"))) "d"] := by
      simp [expandAll, expand, containsAll, col, Node.mean]
    have hbro : broadcastToHeight df.height (.column "d" ((v :: rest).map (fun x =>
        x - (v :: rest).foldl (fun a b => a + b) 0 / ((v :: rest).length : ℚ)))) =
        .ok ("d", (v :: rest).map (fun x =>
          x - (v :: rest).foldl (fun a b => a + b) 0 / ((v :: rest).length : ℚ))) := by
      simp only [broadcastToHeight, List.length_map, hlen]
      simp
    have hnotd : ∀ c ∈ df.columns, "d" ≠ c.1 := by
      intro c hc he
      exact (lookupCol_none_iff "d" df.columns).mp hd
        (he ▸ List.mem_map_of_mem Prod.fst hc)
    have hmap : df.columns.map (fun c =>
        match lookupCol [("d", (v :: rest).map (fun x =>
          x - (v :: rest).foldl (fun a b => a + b) 0 / ((v :: rest).length : ℚ)))] c.1 with
        | some vs => (c.1, vs)
        | none => c) = df.columns := by
      have hpt : ∀ c ∈ df.columns, (match lookupCol [("d", (v :: rest).map (fun x =>
          x - (v :: rest).foldl (fun a b => a + b) 0 / ((v :: rest).length : ℚ)))] c.1 with
          | some vs => (c.1, vs)
          | none => c) = c := by
        intro c hc
        simp [lookupCol, hnotd c hc]
      rw [List.map_congr_left hpt]
      exact List.map_id' df.columns
    have hfil : [("d", (v :: rest).map (fun x =>
        x - (v :: rest).foldl (fun a b => a + b) 0 / ((v :: rest).length : ℚ)))].filter
          (fun c => (lookupCol df.columns c.1).isNone) =
        [("d", (v :: rest).map (fun x =>
          x - (v :: rest).foldl (fun a b => a + b) 0 / ((v :: rest).length : ℚ)))] := by
      simp [List.filter, hd]
    simp only [withColumnsF, hexp, evalList, heval, mapExcept, hbro, applyNewCols,
      hmap, hfil]
  · intro s df keys aggs out hout c hc
    simp only [groupByAgg] at hout
    cases hagg : mapExcept (aggColumn s df keys) aggs with
    | error e => rw [hagg] at hout; cases hout
    | ok aggCols =>
      rw [hagg] at hout
      cases hout
      rcases List.mem_append.mp hc with hk | hA
      · rcases List.mem_map.mp hk with ⟨p, hp, rfl⟩
        simp
      · rcases mapExcept_mem_ok _ _ _ hagg c hA with ⟨a, ha2, hfa⟩
        exact aggColumn_length s df keys a c.1 c.2 hfa

/-- Witness for C6: the mean of a = [1, 2, 3] broadcasts over the frame,
and a group_by aggregate keeps one value per group. -/
theorem claim_c6_aggregate_broadcast_and_groups_witness :
    withColumnsF .floored ⟨[("a", [(1 : ℚ), 2, 3]), ("b", [(4 : ℚ), 5, 6])]⟩
        [.aliasNode (.binaryOp .sub (col "a") (Node.mean (col "a"))) "d"] =
      .ok ⟨[("a", [(1 : ℚ), 2, 3]), ("b", [(4 : ℚ), 5, 6]),
        ("d", [(-1 : ℚ), 0, 1])]⟩ ∧
    (groupByAgg .floored ⟨[("a", [(1 : ℚ), 1])]⟩ ["a"] [Node.sum (col "a")] =
      .ok ⟨[("a", [(1 : ℚ)]), ("a", [(2 : ℚ)])]⟩ ∧
      (("a", [(2 : ℚ)]) : String × List Val).2.length =
        (groupKeys ⟨[("a", [(1 : ℚ), 1])]⟩ ["a"]).length) := by
  have hgb : groupByAgg .floored ⟨[("a", [(1 : ℚ), 1])]⟩ ["a"] [Node.sum (col "a")] =
      .ok ⟨[("a", [(1 : ℚ)]), ("a", [(2 : ℚ)])]⟩ := by
    norm_num [groupByAgg, groupKeys, firstSeen, keyTuple, Frame.lookupCol, lookupCol,
      Frame.height, filterRowsByKey, aggColumn, mapExcept, evalNode, col, Node.sum,
      aggApply, List.range, List.range.loop, List.filter, List.foldl, Node.outName,
      List.enum, List.enumFrom]
  refine ⟨?_, hgb, ?_⟩
  · have h := (claim_c6_aggregate_broadcast_and_groups).1 .floored
      ⟨[("a", [(1 : ℚ), 2, 3]), ("b", [(4 : ℚ), 5, 6])]⟩ 1 [2, 3]
      (by simp [Frame.lookupCol, lookupCol]) rfl (by simp [lookupCol])
    rw [h]
    norm_num [List.foldl]
  · exact (claim_c6_aggregate_broadcast_and_groups).2 .floored
      ⟨[("a", [(1 : ℚ), 1])]⟩ ["a"] [Node.sum (col "a")]
      ⟨[("a", [(1 : ℚ)]), ("a", [(2 : ℚ)])]⟩ hgb ("a", [(2 : ℚ)])
      (List.mem_cons_of_mem _ (List.mem_cons_self _ _))

/-- C7: for same-length zero-free numeric columns, division succeeds
elementwise, the right-hand division produces the reciprocal
relationship (the other operand divided by the receiver, not a
self-division), and s_left / s_right equals 1 / (s_right / s_left)
elementwise. -/
theorem claim_c7_reciprocal_division (s : DivStyle) (nl nr : String)
    (ls rs : List Val) (hlen : ls.length = rs.length)
    (hl : ∀ x ∈ ls, x ≠ 0) (hr : ∀ x ∈ rs, x ≠ 0) :
    seriesBinSeries s .truediv ⟨nl, ls⟩ ⟨nr, rs⟩ =
      .ok ⟨nl, List.zipWith (fun a b => a / b) ls rs⟩ ∧
    seriesRTruediv s ⟨nl, ls⟩ ⟨nr, rs⟩ =
      .ok ⟨nr, List.zipWith (fun a b => a / b) rs ls⟩ ∧
    List.zipWith (fun a b => a / b) ls rs =
      (List.zipWith (fun a b => a / b) rs ls).map (fun x => 1 / x) := by
  have hdivok : ∀ (xs ys : List Val), (∀ y ∈ ys, y ≠ 0) →
      mapExcept (fun p => applyOp s .truediv p.1 p.2) (xs.zip ys) =
        .ok (List.zipWith (fun a b => a / b) xs ys) := by
    intro xs ys hy
    rw [← map_zip_eq_zipWith]
    apply mapExcept_ok_of_mem
    intro p hp
    have hp2 : p.2 ∈ ys := (List.of_mem_zip hp).2
    simp [applyOp, hy p.2 hp2]
  refine ⟨?_, ?_, ?_⟩
  · simp only [seriesBinSeries, if_pos hlen, hdivok ls rs hr]
  · simp only [seriesRTruediv, seriesBinSeries, if_pos hlen.symm, hdivok rs ls hl]
  · clear hlen hl hr
    induction ls generalizing rs with
    | nil => cases rs <;> rfl
    | cons x xs0 ih =>
      cases rs with
      | nil => rfl
      | cons y ys0 =>
        simp only [List.zipWith_cons_cons, List.map_cons]
        rw [one_div_div, ih ys0]

/-- Witness for C7 on the columns [1, 2, 3] and [2, 2, 1]. -/
theorem claim_c7_reciprocal_division_witness :
    ([(1 : ℚ), 2, 3].length = [(2 : ℚ), 2, 1].length) ∧
    seriesBinSeries .floored .truediv ⟨"a", [(1 : ℚ), 2, 3]⟩ ⟨"b", [(2 : ℚ), 2, 1]⟩ =
      .ok ⟨"a", [(1 : ℚ) / 2, 1, 3]⟩ ∧
    seriesRTruediv .floored ⟨"a", [(1 : ℚ), 2, 3]⟩ ⟨"b", [(2 : ℚ), 2, 1]⟩ =
      .ok ⟨"b", [(2 : ℚ), 1, 1 / 3]⟩ := by
  have h := claim_c7_reciprocal_division .floored "a" "b" [(1 : ℚ), 2, 3]
    [(2 : ℚ), 2, 1] (by decide)
    (by intro x hx; fin_cases hx <;> norm_num)
    (by intro x hx; fin_cases hx <;> norm_num)
  refine ⟨by decide, ?_, ?_⟩
  · rw [h.1]
    norm_num [List.zipWith]
  · rw [h.2.1]
    norm_num [List.zipWith]

/-- The select(all().sum()) evaluation on the demo frame. -/
theorem selectF_all_sum_demo (s : DivStyle) :
    selectF s ⟨[("a", [(1 : ℚ), 2, 3]), ("b", [(4 : ℚ), 5, 6])]⟩ [Node.sum allOf] =
      .ok ⟨[("a", [(6 : ℚ)]), ("b", [(15 : ℚ)])]⟩ := by
  have hlka : lookupCol [("a", [(1 : ℚ), 2, 3]), ("b", [(4 : ℚ), 5, 6])] "a" =
      some [(1 : ℚ), 2, 3] := by simp [lookupCol]
  have hlkb : lookupCol [("a", [(1 : ℚ), 2, 3]), ("b", [(4 : ℚ), 5, 6])] "b" =
      some [(4 : ℚ), 5, 6] := by simp [lookupCol]
  simp only [selectF, expandAll, expand, containsAll, containsAllList, substAll,
    Node.sum, allOf, evalList, evalNode, Frame.lookupCol, hlka, hlkb, Frame.names,
    aggApply, Resolved.rename, commonLength, columnLengths, firstDifferent,
    materializeAt, mapExcept, List.map_cons, List.map_nil, List.foldl]
  norm_num

/-- C8: on the frame with a = [1, 2, 3] and b = [4, 5, 6],
select(all().sum()) yields the one-row output with a = 6 and b = 15:
each expanded per-column aggregate keeps its column name, produces one
value, and all produced columns share that common length of one. -/
theorem claim_c8_select_all_sum (s : DivStyle) :
    selectF s ⟨[("a", [(1 : ℚ), 2, 3]), ("b", [(4 : ℚ), 5, 6])]⟩ [Node.sum allOf] =
      .ok ⟨[("a", [(6 : ℚ)]), ("b", [(15 : ℚ)])]⟩ ∧
    ∀ c ∈ (Frame.mk [("a", [(6 : ℚ)]), ("b", [(15 : ℚ)])]).columns,
      c.2.length = 1 := by
  refine ⟨selectF_all_sum_demo s, ?_⟩
  intro c hc
  fin_cases hc <;> rfl

/-- Witness for C8 at the first output column. -/
theorem claim_c8_select_all_sum_witness :
    selectF .floored ⟨[("a", [(1 : ℚ), 2, 3]), ("b", [(4 : ℚ), 5, 6])]⟩
        [Node.sum allOf] =
      .ok ⟨[("a", [(6 : ℚ)]), ("b", [(15 : ℚ)])]⟩ ∧
    ("a", [(6 : ℚ)]) ∈ (Frame.mk [("a", [(6 : ℚ)]), ("b", [(15 : ℚ)])]).columns ∧
    (("a", [(6 : ℚ)]) : String × List Val).2.length = 1 :=
  ⟨(claim_c8_select_all_sum .floored).1,
    List.mem_cons_self _ _,
    (claim_c8_select_all_sum .floored).2 ("a", [(6 : ℚ)])
      (List.mem_cons_self _ _)⟩

/-- C10: select and with_columns do not mutate their source frame: the
four demo calls all run against the same original frame value and each
produces exactly the result determined by the original, unmodified
columns (the engine is a pure function of its input); and in general a
successful with_columns returns a new frame whose names extend the
original frame's names. -/
theorem claim_c10_calls_observe_original_frame :
    withColumnsF .floored ⟨[("a", [(1 : ℚ), 2, 3]), ("b", [(4 : ℚ), 5, 6])]⟩
        [.aliasNode (.binaryOp .add (col "a") (col "b")) "c",
         .aliasNode (.binaryOp .sub (col "a") (Node.mean (col "a"))) "d"] =
      .ok ⟨[("a", [(1 : ℚ), 2, 3]), ("b", [(4 : ℚ), 5, 6]), ("c", [(5 : ℚ), 7, 9]),
        ("d", [(-1 : ℚ), 0, 1])]⟩ ∧
    withColumnsF .floored ⟨[("a", [(1 : ℚ), 2, 3]), ("b", [(4 : ℚ), 5, 6])]⟩
        [.binaryOp .mul .allColumns (.lit 2)] =
      .ok ⟨[("a", [(2 : ℚ), 4, 6]), ("b", [(8 : ℚ), 10, 12])]⟩ ∧
    withColumnsF .floored ⟨[("a", [(1 : ℚ), 2, 3]), ("b", [(4 : ℚ), 5, 6])]⟩
        [.aliasNode (sumHorizontal [col "a", col "b"]) "horizonal_sum"] =
      .ok ⟨[("a", [(1 : ℚ), 2, 3]), ("b", [(4 : ℚ), 5, 6]),
        ("horizonal_sum", [(5 : ℚ), 7, 9])]⟩ ∧
    selectF .floored ⟨[("a", [(1 : ℚ), 2, 3]), ("b", [(4 : ℚ), 5, 6])]⟩
        [Node.sum allOf] =
      .ok ⟨[("a", [(6 : ℚ)]), ("b", [(15 : ℚ)])]⟩ ∧
    (∀ (s : DivStyle) (df : Frame) (es : List Node) (out : Frame),
      withColumnsF s df es = .ok out →
      ∃ extra, out.names = df.names ++ extra) := by
  have hlka : lookupCol [("a", [(1 : ℚ), 2, 3]), ("b", [(4 : ℚ), 5, 6])] "a" =
      some [(1 : ℚ), 2, 3] := by simp [lookupCol]
  have hlkb : lookupCol [("a", [(1 : ℚ), 2, 3]), ("b", [(4 : ℚ), 5, 6])] "b" =
      some [(4 : ℚ), 5, 6] := by simp [lookupCol]
  refine ⟨?_, ?_, ?_, selectF_all_sum_demo .floored, ?_⟩
  · have hevC : evalNode .floored ⟨[("a", [(1 : ℚ), 2, 3]), ("b", [(4 : ℚ), 5, 6])]⟩
        (.aliasNode (.binaryOp .add (col "a") (col "b")) "c") =
        .ok (.column "c" [(5 : ℚ), 7, 9]) := by
      simp only [evalNode, col, Frame.lookupCol, hlka, hlkb]
      norm_num [binaryResolved, validateOperands, nativeBinary, mapExcept, applyOp,
        Resolved.rename]
    have hevD : evalNode .floored ⟨[("a", [(1 : ℚ), 2, 3]), ("b", [(4 : ℚ), 5, 6])]⟩
        (.aliasNode (.binaryOp .sub (col "a") (Node.mean (col "a"))) "d") =
        .ok (.column "d" [(-1 : ℚ), 0, 1]) := by
      simp only [evalNode, col, Node.mean, Frame.lookupCol, hlka, aggApply]
      norm_num [binaryResolved, validateOperands, nativeBinary, mapExcept, applyOp,
        Resolved.rename, List.foldl]
    have hexp : expandAll ⟨[("a", [(1 : ℚ), 2, 3]), ("b", [(4 : ℚ), 5, 6])]⟩
        [.aliasNode (.binaryOp .add (col "a") (col "b")) "c",
         .aliasNode (.binaryOp .sub (col "a") (Node.mean (col "a"))) "d"] =
        [.aliasNode (.binaryOp .add (col "a") (col "b")) "c",
         .aliasNode (.binaryOp .sub (col "a") (Node.mean (col "a"))) "d"] := by
      simp [expandAll, expand, containsAll, col, Node.mean]
    have hb1 : broadcastToHeight
        (Frame.height ⟨[("a", [(1 : ℚ), 2, 3]), ("b", [(4 : ℚ), 5, 6])]⟩)
        (.column "c" [(5 : ℚ), 7, 9]) = .ok ("c", [(5 : ℚ), 7, 9]) := by
      simp [broadcastToHeight, Frame.height]
    have hb2 : broadcastToHeight
        (Frame.height ⟨[("a", [(1 : ℚ), 2, 3]), ("b", [(4 : ℚ), 5, 6])]⟩)
        (.column "d" [(-1 : ℚ), 0, 1]) = .ok ("d", [(-1 : ℚ), 0, 1]) := by
      simp [broadcastToHeight, Frame.height]
    have hl1 : lookupCol [("c", [(5 : ℚ), 7, 9]), ("d", [(-1 : ℚ), 0, 1])] "a" =
        none := by simp [lookupCol]
    have hl2 : lookupCol [("c", [(5 : ℚ), 7, 9]), ("d", [(-1 : ℚ), 0, 1])] "b" =
        none := by simp [lookupCol]
    have hl3 : lookupCol [("a", [(1 : ℚ), 2, 3]), ("b", [(4 : ℚ), 5, 6])] "c" =
        none := by simp [lookupCol]
    have hl4 : lookupCol [("a", [(1 : ℚ), 2, 3]), ("b", [(4 : ℚ), 5, 6])] "d" =
        none := by simp [lookupCol]
    simp only [withColumnsF, hexp, evalList, hevC, hevD, mapExcept, hb1, hb2,
      applyNewCols, List.map_cons, List.map_nil, List.filter, hl1, hl2, hl3, hl4,
      Option.isNone_none, List.cons_append, List.nil_append]
  · have hwfc : Frame.wellFormed ⟨[("a", [(1 : ℚ), 2, 3]), ("b", [(4 : ℚ), 5, 6])]⟩ := by
      constructor
      · decide
      · intro c hc
        fin_cases hc <;> rfl
    rw [withColumnsF_all_mul_two .floored _ hwfc]
    norm_num
  · have hevH : evalNode .floored ⟨[("a", [(1 : ℚ), 2, 3]), ("b", [(4 : ℚ), 5, 6])]⟩
        (.aliasNode (sumHorizontal [col "a", col "b"]) "horizonal_sum") =
        .ok (.column "horizonal_sum" [(5 : ℚ), 7, 9]) := by
      simp only [evalNode, evalList, sumHorizontal, col, Frame.lookupCol, hlka, hlkb]
      norm_num [horizontalFold, HorizKind.toOp, binaryResolved, validateOperands,
        nativeBinary, mapExcept, applyOp, Resolved.rename]
    have hexp : expandAll ⟨[("a", [(1 : ℚ), 2, 3]), ("b", [(4 : ℚ), 5, 6])]⟩
        [.aliasNode (sumHorizontal [col "a", col "b"]) "horizonal_sum"] =
        [.aliasNode (sumHorizontal [col "a", col "b"]) "horizonal_sum"] := by
      simp [expandAll, expand, containsAll, containsAllList, sumHorizontal, col]
    have hb1 : broadcastToHeight
        (Frame.height ⟨[("a", [(1 : ℚ), 2, 3]), ("b", [(4 : ℚ), 5, 6])]⟩)
        (.column "horizonal_sum" [(5 : ℚ), 7, 9]) =
        .ok ("horizonal_sum", [(5 : ℚ), 7, 9]) := by
      simp [broadcastToHeight, Frame.height]
    have hl1 : lookupCol [("horizonal_sum", [(5 : ℚ), 7, 9])] "a" = none := by
      simp [lookupCol]
    have hl2 : lookupCol [("horizonal_sum", [(5 : ℚ), 7, 9])] "b" = none := by
      simp [lookupCol]
    have hl3 : lookupCol [("a", [(1 : ℚ), 2, 3]), ("b", [(4 : ℚ), 5, 6])]
        "horizonal_sum" = none := by simp [lookupCol]
    simp only [withColumnsF, hexp, evalList, hevH, mapExcept, hb1, applyNewCols,
      List.map_cons, List.map_nil, List.filter, hl1, hl2, hl3, Option.isNone_none,
      List.cons_append, List.nil_append]
  · intro s df es out hout
    simp only [withColumnsF] at hout
    cases h1 : evalList s df (expandAll df es) with
    | error e => rw [h1] at hout; cases hout
    | ok rs =>
      rw [h1] at hout
      dsimp only at hout
      cases h2 : mapExcept (broadcastToHeight df.height) rs with
      | error e =>
        rw [h2] at hout
        cases hout
      | ok newCols =>
        rw [h2] at hout
        dsimp only at hout
        cases hout
        refine ⟨(newCols.filter
          (fun c => (lookupCol df.columns c.1).isNone)).map Prod.fst, ?_⟩
        simp only [Frame.names, applyNewCols, List.map_append]
        congr 1
        rw [List.map_map]
        apply List.map_congr_left
        intro c hc
        simp only [Function.comp_apply]
        cases h3 : lookupCol newCols c.1 <;> simp [h3]

/-- Witness for C10: a with_columns call that appends a fresh literal
column extends the original names. -/
theorem claim_c10_calls_observe_original_frame_witness :
    withColumnsF .floored ⟨[("a", [(1 : ℚ)])]⟩ [.aliasNode (.lit 5) "z"] =
      .ok ⟨[("a", [(1 : ℚ)]), ("z", [(5 : ℚ)])]⟩ ∧
    ∃ extra, (Frame.mk [("a", [(1 : ℚ)]), ("z", [(5 : ℚ)])]).names =
      (Frame.mk [("a", [(1 : ℚ)])]).names ++ extra := by
  have hout : withColumnsF .floored ⟨[("a", [(1 : ℚ)])]⟩ [.aliasNode (.lit 5) "z"] =
      .ok ⟨[("a", [(1 : ℚ)]), ("z", [(5 : ℚ)])]⟩ := by
    have hl1 : lookupCol [("z", [(5 : ℚ)])] "a" = none := by simp [lookupCol]
    have hl2 : lookupCol [("a", [(1 : ℚ)])] "z" = none := by simp [lookupCol]
    simp only [withColumnsF, expandAll, expand, containsAll, evalList, evalNode,
      Resolved.rename, mapExcept, broadcastToHeight, Frame.height, applyNewCols,
      List.map_cons, List.map_nil, List.filter, hl1, hl2, Option.isNone_none,
      List.cons_append, List.nil_append, List.replicate]
  exact ⟨hout, claim_c10_calls_observe_original_frame.2.2.2.2 .floored
    ⟨[("a", [(1 : ℚ)])]⟩ [.aliasNode (.lit 5) "z"]
    ⟨[("a", [(1 : ℚ)]), ("z", [(5 : ℚ)])]⟩ hout⟩

end Narwhals
